import Mathlib

/-!
Verification of the sliding-window detector
(`src/openbr/plugins/imgproc/slidingwindow.cpp`).

The C++ source is shallowly embedded below.  Machine `int`s are modelled as
`ℤ`.  The `double factor` of the scale loop is modelled exactly: the loop
only ever multiplies `factor` by `scaleFactor` and divides or multiplies
integers by it, so every value of interest is a ratio of integers, and is
represented by an explicit (unnormalised) fraction `Frac` whose arithmetic
is plain integer arithmetic.  `Frac.toRat` interprets a fraction as the
rational it denotes; all order-theoretic reasoning happens through it.
`cvRound` (rounding half to even, the rounding mode of OpenCV's `cvRound`)
is implemented on fractions by integer floor division.  Classifier scores
(`float result`) are modelled as `ℤ`: the source only compares a score with
`0` (`result > 0`, `result == 0`) and stores it as a weight, so only its
ordered value matters.

The inner raster scan of the source can fail to terminate (the `x = yStep`
fast-forward on a zero score can move the cursor backwards), and the scale
loop fails to terminate when `scaleFactor <= 1`, so every loop is given
explicit fuel and returns `none` when the fuel runs out.  Statements about
runs are therefore conditioned on the run having completed
(`... = some out`).
-/

namespace SlidingWindow

/-- An unnormalised fraction `num / den`.  A zero denominator denotes the
rational `0`, matching the `x / 0 = 0` convention of `ℚ`. -/
structure Frac where
  num : ℤ
  den : ℤ
deriving DecidableEq

/-- The rational a fraction denotes. -/
def Frac.toRat (q : Frac) : ℚ := (q.num : ℚ) / (q.den : ℚ)

/-- Fraction multiplication (`factor *= scaleFactor`). -/
def Frac.mul (a b : Frac) : Frac := ⟨a.num * b.num, a.den * b.den⟩

/-- An integer times a fraction (`originalWindowSize.width * factor`). -/
def intMulF (z : ℤ) (q : Frac) : Frac := ⟨z * q.num, q.den⟩

/-- A natural number times a fraction (`x * factor` for a loop counter). -/
def natMulF (x : ℕ) (q : Frac) : Frac := ⟨(x : ℤ) * q.num, q.den⟩

/-- A natural number divided by a fraction (`image.cols / factor`). -/
def natDivF (c : ℕ) (q : Frac) : Frac := ⟨(c : ℤ) * q.den, q.num⟩

/-- Decides `z < q.toRat` by cross-multiplication. -/
def intLtFrac (z : ℤ) (q : Frac) : Bool :=
  if 0 < q.den then decide (z * q.den < q.num)
  else if q.den < 0 then decide (q.num < z * q.den)
  else decide (z < 0)

/-- Decides `q.toRat < z` by cross-multiplication. -/
def fracLtInt (q : Frac) (z : ℤ) : Bool :=
  if 0 < q.den then decide (q.num < z * q.den)
  else if q.den < 0 then decide (z * q.den < q.num)
  else decide (0 < z)

/-- Round `n / d` (for `d ≥ 0`) to the nearest integer, ties to even,
by integer floor division. -/
def roundHalfEven (n d : ℤ) : ℤ :=
  if d = 0 then 0
  else
    let fl := n.fdiv d
    let r2 := 2 * (n - fl * d)
    if r2 < d then fl
    else if d < r2 then fl + 1
    else if fl % 2 = 0 then fl else fl + 1

/-- `cvRound` on a fraction: round to the nearest integer, ties to even
(the rounding mode of OpenCV's `cvRound`, used throughout the source),
after normalising the denominator's sign. -/
def cvRoundF (q : Frac) : ℤ :=
  if q.den < 0 then roundHalfEven (-q.num) (-q.den) else roundHalfEven q.num q.den

/-- `cv::Size`. -/
structure Size where
  width : ℤ
  height : ℤ
deriving DecidableEq

/-- `cv::Rect`. -/
structure Rect where
  x : ℤ
  y : ℤ
  width : ℤ
  height : ℤ
deriving DecidableEq

/-- A `cv::Mat` single-channel image: dimensions plus abstract pixel
content (`OpenCVUtils::cvtUChar` converts the template's matrix to 8-bit
before scanning; the content is only ever consumed by the classifier). -/
structure Image where
  cols : ℕ
  rows : ℕ
  pix : ℕ → ℕ → ℕ

/-- The external `br::Classifier` collaborator, as used by this file:
a fixed native window size (`classifier->windowSize()`) and a pure scoring
function (`classifier->classify(window)`).  The window handed to `classify`
in the source is the sub-matrix of the resampled image at `(x, y)`; since
the resampling (`cv::resize`, linear interpolation) and the classifier are
both external to this file, their composite is modelled as one abstract
function of the image, the scale factor and the window origin. -/
structure Classifier where
  windowSize : Size
  classify : Image → Frac → ℕ → ℕ → ℤ

/-- The transform's scan parameters (the `BR_PROPERTY` fields). -/
structure Params where
  minSize : ℤ
  maxSize : ℤ
  scaleFactor : Frac
  minNeighbors : ℤ
  eps : Frac
deriving DecidableEq

/-- A raw candidate: rectangle in original-image coordinates plus the
classifier score pushed as its level weight (lines 123-125). -/
abbrev Candidate := Rect × ℤ

/-- Line 101: `windowSize = round(originalWindowSize * factor)`. -/
def windowSizeAt (ows : Size) (factor : Frac) : Size :=
  ⟨cvRoundF (intMulF ows.width factor), cvRoundF (intMulF ows.height factor)⟩

/-- Line 102: `scaledImageSize = round(imageSize / factor)`. -/
def scaledImageSizeAt (img : Image) (factor : Frac) : Size :=
  ⟨cvRoundF (natDivF img.cols factor), cvRoundF (natDivF img.rows factor)⟩

/-- Lines 92-94: `maxObjectSize` resolves to the image size when the
`maxSize` parameter is unset (non-positive). -/
def maxObjectSize (p : Params) (img : Image) : Size :=
  if p.maxSize ≤ 0 then ⟨img.cols, img.rows⟩ else ⟨p.maxSize, p.maxSize⟩

/-- Line 115: `yStep = factor > 2. ? 1 : 2` (used for both axes). -/
def yStepAt (factor : Frac) : ℕ := if intLtFrac 2 factor then 1 else 2

/-- The inner horizontal loop (lines 117-129).  `score x` is the
classifier result at `(x, y)` for the current row; a positive score emits
`(x, score x)`; a zero score sets `x` to `yStep` before the `x += yStep`
increment (line 128).  Fuelled: the zero-score fast-forward can move the
cursor backwards, so the loop need not terminate. -/
def rowScan (score : ℕ → ℤ) (procW yStep : ℕ) : ℕ → ℕ → Option (List (ℕ × ℤ))
  | 0, _ => none
  | fuel+1, x =>
    if x < procW then
      let s := score x
      let rest := rowScan score procW yStep fuel ((if s = 0 then yStep else x) + yStep)
      if 0 < s then rest.map (fun l => (x, s) :: l) else rest
    else some []

/-- The outer vertical loop (line 116): raster rows at multiples of
`yStep`, collecting `(x, y, score)` triples in scan order. -/
def colScan (score : ℕ → ℕ → ℤ) (procW procH yStep : ℕ) :
    ℕ → ℕ → Option (List (ℕ × ℕ × ℤ))
  | 0, _ => none
  | fuel+1, y =>
    if y < procH then
      match rowScan (fun x => score x y) procW yStep (fuel+1) 0,
            colScan score procW procH yStep fuel (y + yStep) with
      | some row, some rest => some ((row.map fun p => (p.1, y, p.2)) ++ rest)
      | _, _ => none
    else some []

/-- Lines 122-125: a positive score at `(x, y)` pushes
`Rect(cvRound(x*factor), cvRound(y*factor), windowSize.width,
windowSize.height)` with the score as its weight. -/
def candidateAt (ows : Size) (factor : Frac) (t : ℕ × ℕ × ℤ) : Candidate :=
  (⟨cvRoundF (natMulF t.1 factor), cvRoundF (natMulF t.2.1 factor),
    (windowSizeAt ows factor).width, (windowSizeAt ows factor).height⟩, t.2.2)

/-- The scale loop (lines 98-131), fuelled.  Returns the scanned levels
in order, each as its factor paired with the candidates it pushed.
Termination checks (lines 105-108) come before the minimum-size skip
(lines 109-110), exactly as in the source. -/
def scaleLoop (cls : Classifier) (p : Params) (img : Image) :
    ℕ → Frac → Option (List (Frac × List Candidate))
  | 0, _ => none
  | fuel+1, factor =>
    let ows := cls.windowSize
    let ws := windowSizeAt ows factor
    let sis := scaledImageSizeAt img factor
    let prW := sis.width - ows.width
    let prH := sis.height - ows.height
    let mos := maxObjectSize p img
    if prW ≤ 0 ∨ prH ≤ 0 then some []
    else if mos.width < ws.width ∨ mos.height < ws.height then some []
    else if ws.width < p.minSize ∨ ws.height < p.minSize then
      scaleLoop cls p img fuel (factor.mul p.scaleFactor)
    else
      match colScan (fun x y => cls.classify img factor x y)
              prW.toNat prH.toNat (yStepAt factor) (fuel+1) 0,
            scaleLoop cls p img fuel (factor.mul p.scaleFactor) with
      | some pts, some rest =>
          some ((factor, pts.map (candidateAt ows factor)) :: rest)
      | _, _ => none

/-- The full multi-scale scan of one image: the scale loop starting at
`factor = 1` (line 98). -/
def scanImage (cls : Classifier) (p : Params) (img : Image) (fuel : ℕ) :
    Option (List (Frac × List Candidate)) :=
  scaleLoop cls p img fuel ⟨1, 1⟩

/-- The flat candidate list of a completed scan, in push order
(the `rects`/`levelWeights` vectors after the loop, lines 87-131). -/
def scanCandidates (cls : Classifier) (p : Params) (img : Image) (fuel : ℕ) :
    Option (List Candidate) :=
  (scanImage cls p img fuel).map fun out => (out.map Prod.snd).flatten

/-! ## Detection Clusterer

The call on line 133 goes to OpenCV's `groupRectangles(rects, rejectLevels,
levelWeights, minNeighbors, eps)`, whose implementation is not part of this
repository.  The definitions below are therefore modelled from the spec
(§4.2 Detection Clusterer), not from source code. -/

/-- Modelled from the spec: the symmetric overlap relation of §4.2 — two
rectangles are equivalent when their intersection, relative to the smaller
of the two, exceeds `1 − eps` independently along the width and the height
(the `groupRectangles` similarity predicate is not in this repository's
sources).  `(1 - eps) * min width < intersection width`, and likewise for
heights, decided by cross-multiplication with `eps = eps.num / eps.den`. -/
def similarRects (eps : Frac) (a b : Rect) : Bool :=
  let iw : ℤ := max (min (a.x + a.width) (b.x + b.width) - max a.x b.x) 0
  let ih : ℤ := max (min (a.y + a.height) (b.y + b.height) - max a.y b.y) 0
  fracLtInt (intMulF (min a.width b.width) ⟨eps.den - eps.num, eps.den⟩) iw &&
  fracLtInt (intMulF (min a.height b.height) ⟨eps.den - eps.num, eps.den⟩) ih

/-- Modelled from the spec: grow equivalence classes (connected components
of the `similarRects` graph) by iterative seed growth — each new candidate
merges every existing class it is similar to (§4.2: "Compute classes via
union-find or iterative seed growth over the candidate list"). -/
def addToClasses (eps : Frac) (cls : List (List Candidate)) (c : Candidate) :
    List (List Candidate) :=
  let pr := cls.partition fun g => g.any fun m => similarRects eps m.1 c.1
  pr.2 ++ [pr.1.flatten ++ [c]]

/-- Modelled from the spec: the equivalence classes of a candidate list. -/
def rectClasses (eps : Frac) (cands : List Candidate) : List (List Candidate) :=
  cands.foldl (addToClasses eps) []

/-- Modelled from the spec: the representative rectangle of a class — the
coordinate-wise average of its members, rounded to integers (§4.2). -/
def avgRect (g : List Candidate) : Rect :=
  ⟨cvRoundF ⟨(g.map fun m => m.1.x).sum, (g.length : ℤ)⟩,
   cvRoundF ⟨(g.map fun m => m.1.y).sum, (g.length : ℤ)⟩,
   cvRoundF ⟨(g.map fun m => m.1.width).sum, (g.length : ℤ)⟩,
   cvRoundF ⟨(g.map fun m => m.1.height).sum, (g.length : ℤ)⟩⟩

/-- Modelled from the spec: the Detection Clusterer (§4.2) standing in for
the external `groupRectangles` call on line 133.  Classes with fewer than
`minNeighbors` members are discarded; each surviving class yields its
representative rectangle and an aggregated confidence equal to the sum of
its members' scores (the reject-level multiplier is the constant 1, pushed
on line 124). -/
def groupDetections (minNeighbors : ℤ) (eps : Frac) (cands : List Candidate) :
    List Candidate :=
  ((rectClasses eps cands).filter fun g => decide (minNeighbors ≤ (g.length : ℤ))).map
    fun g => (avgRect g, (g.map fun m => m.2).sum)

/-! ## Detection Driver -/

/-- The metadata of a `br::File` as touched by this transform: the
`enrollAll` flag, the rectangle list (`appendRect`), the `Face` property
and the `Confidence` property. -/
structure FileMeta where
  enrollAll : Bool
  rects : List Rect
  face : Option Rect
  confidence : Option ℤ
deriving DecidableEq

/-- A `br::Template`: file metadata plus a list of matrices. -/
structure Template where
  file : FileMeta
  mats : List Image

/-- Lines 139-146: the output record for one surviving rectangle —
a fresh template carrying the original image, with `Confidence` set,
the rectangle appended and the `Face` property set to it. -/
def mkRecord (fm : FileMeta) (img : Image) (r : Rect) (conf : ℤ) : Template :=
  { file := { fm with confidence := some conf,
                      rects := fm.rects ++ [r],
                      face := some r },
    mats := [img] }

/-- Lines 87-148: process one matrix of a template — scan, cluster, apply
the no-detection fallback (lines 135-136) and assemble the output records
(lines 138-148).  `Confidence` is `rejectLevels[j]*levelWeights[j]` while
`j` indexes a clustered detection (the clusterer returns that product
aggregated per class) and the constant `1` otherwise (line 143), which is
the case exactly for the fallback rectangle. -/
def projectMat (cls : Classifier) (p : Params) (fm : FileMeta) (img : Image)
    (fuel : ℕ) : Option (List Template) :=
  (scanCandidates cls p img fuel).map fun cands =>
    let dets := groupDetections p.minNeighbors p.eps cands
    let rects0 := dets.map Prod.fst
    let weights := dets.map Prod.snd
    let rects := if fm.enrollAll = false ∧ rects0 = []
                 then rects0 ++ [⟨0, 0, img.cols, img.rows⟩] else rects0
    (List.range rects.length).map fun j =>
      mkRecord fm img (rects.getD j ⟨0, 0, 0, 0⟩)
        (if j < weights.length then weights.getD j 0 else 1)

/-- The per-template loop body over `t[i]` (line 83). -/
def projectMats (cls : Classifier) (p : Params) (fm : FileMeta) (fuel : ℕ) :
    List Image → Option (List Template)
  | [] => some []
  | img :: rest =>
    match projectMat cls p fm img fuel, projectMats cls p fm fuel rest with
    | some us, some vs => some (us ++ vs)
    | _, _ => none

/-- `project(const TemplateList &, TemplateList &)` (lines 71-151):
an empty template with `enrollAll` unset passes through unchanged
(lines 78-81, mirroring ExpandTransform); otherwise every matrix is
scanned and its records appended. -/
def projectList (cls : Classifier) (p : Params) (fuel : ℕ) :
    List Template → Option (List Template)
  | [] => some []
  | t :: rest =>
    match (if t.mats.isEmpty ∧ t.file.enrollAll = false
           then some [t] else projectMats cls p t.file fuel t.mats),
          projectList cls p fuel rest with
    | some us, some vs => some (us ++ vs)
    | _, _ => none

/-- `project(const Template &, Template &)` (lines 64-69): delegate to the
list version on a singleton and keep the first record; when no record is
produced, the destination template is left as it was. -/
def projectOne (cls : Classifier) (p : Params) (fuel : ℕ)
    (src dst : Template) : Option Template :=
  (projectList cls p fuel [src]).map fun temp =>
    match temp with
    | [] => dst
    | u :: _ => u

/-- `load(QDataStream &)` (lines 153-165).  `fsOpened` models
`fs.isOpened()` for the cascade file; `stored` is the model the storage
holds; `current` is the classifier's state before the call.  The pair's
second component records whether the routine reported a failure to its
caller — the source is a `void` function that returns silently in both
branches, so it is `false` in both. -/
def loadModel {M : Type} (fsOpened : Bool) (stored : M) (current : Option M) :
    Option M × Bool :=
  if fsOpened then (some stored, false) else (current, false)

/-! ## Concrete configurations used by witnesses and counterexamples -/

/-- A 20×20 image of zeroes. -/
def img20 : Image := ⟨20, 20, fun _ _ => 0⟩

/-- A classifier with a 3×3 native window rejecting every window. -/
def rejectAllCls : Classifier := ⟨⟨3, 3⟩, fun _ _ _ _ => -1⟩

/-- Parameters with `scaleFactor = 1` (an invalid configuration the spec
says must be rejected): `minSize 1`, `maxSize -1`, `minNeighbors 5`,
`eps 1/5`. -/
def unitScaleParams : Params := ⟨1, -1, ⟨1, 1⟩, 5, ⟨1, 5⟩⟩

/-- A zero-area (0×0) image. -/
def zeroAreaImage : Image := ⟨0, 0, fun _ _ => 0⟩

/-- A template holding one zero-area matrix, with `enrollAll` false and no
pre-existing metadata. -/
def zeroAreaTemplate : Template := ⟨⟨false, [], none, none⟩, [zeroAreaImage]⟩

/-- The transform's default parameters
(`minSize 20`, `maxSize -1`, `scaleFactor 1.2`, `minNeighbors 5`, `eps 0.2`). -/
def defaultParams : Params := ⟨20, -1, ⟨6, 5⟩, 5, ⟨1, 5⟩⟩

/-- A 7×7 image of zeroes. -/
def img7 : Image := ⟨7, 7, fun _ _ => 0⟩

/-- A classifier accepting exactly the window at origin (0,0) of the
unscaled level, with a 3×3 native window and no zero scores anywhere. -/
def singleHitCls : Classifier :=
  ⟨⟨3, 3⟩, fun _ f x y => if f = ⟨1, 1⟩ ∧ x = 0 ∧ y = 0 then 1 else -1⟩

/-- Permissive parameters: `minSize 1`, `maxSize -1`, `scaleFactor 2`,
`minNeighbors 1`, `eps 1/5`. -/
def permissiveParams : Params := ⟨1, -1, ⟨2, 1⟩, 1, ⟨1, 5⟩⟩

/-- A template holding the 7×7 image, `enrollAll` false. -/
def img7Template : Template := ⟨⟨false, [], none, none⟩, [img7]⟩

/-- A 9×9 image of zeroes. -/
def img9x9 : Image := ⟨9, 9, fun _ _ => 0⟩

/-- A classifier returning score 0 at `x = 0` of the unscaled level,
score 5 at origin (2,0) of the unscaled level, and -1 everywhere else. -/
def zeroJumpCls : Classifier :=
  ⟨⟨3, 3⟩, fun _ f x y =>
    if x = 0 ∧ f = ⟨1, 1⟩ then 0
    else if x = 2 ∧ y = 0 ∧ f = ⟨1, 1⟩ then 5 else -1⟩

/-- Parameters with `minSize 4`, `maxSize -1`, `scaleFactor 2`,
`minNeighbors 1`, `eps 1/5`: on a 20×20 image with a 3×3 window the first
level is skipped as below `minSize`. -/
def c4Params : Params := ⟨4, -1, ⟨2, 1⟩, 1, ⟨1, 5⟩⟩

/-- A rectangle lies entirely within the image: non-negative origin,
origin plus extent at most the image dimensions. -/
def withinImage (img : Image) (r : Rect) : Prop :=
  0 ≤ r.x ∧ 0 ≤ r.y ∧ r.x + r.width ≤ (img.cols : ℤ) ∧ r.y + r.height ≤ (img.rows : ℤ)

/-- A rectangle lies within the image enlarged by one pixel in each
extent (the bound cluster-averaged representatives actually satisfy). -/
def withinImagePlusOne (img : Image) (r : Rect) : Prop :=
  0 ≤ r.x ∧ 0 ≤ r.y ∧
  r.x + r.width ≤ (img.cols : ℤ) + 1 ∧ r.y + r.height ≤ (img.rows : ℤ) + 1

/-- A 15×7 image of zeroes. -/
def img15x7 : Image := ⟨15, 7, fun _ _ => 0⟩

/-- A classifier accepting exactly two windows, both flush with the right
image edge after mapping back: `(10,0,5,5)` at factor 25/21 and
`(9,0,6,6)` at factor (25/21)². -/
def twoTightCls : Classifier :=
  ⟨⟨4, 4⟩, fun _ f x y =>
    if y = 0 ∧ x = 8 ∧ f = ⟨25, 21⟩ then 1
    else if y = 0 ∧ x = 6 ∧ f = ⟨625, 441⟩ then 1 else -1⟩

/-- Parameters `minSize 5`, `maxSize -1`, `scaleFactor 25/21`,
`minNeighbors 1`, `eps 1/5`. -/
def tightParams : Params := ⟨5, -1, ⟨25, 21⟩, 1, ⟨1, 5⟩⟩

/-! ## Characterisations of the scan used by the claim theorems -/

/-- The horizontal positions a quirk-free raster row visits starting at
`x`: `x, x + yStep, x + 2*yStep, ...` while `< procW`. -/
def rowVisits (procW yStep x : ℕ) : List ℕ :=
  (List.range ((procW - x + yStep - 1) / yStep)).map fun i => x + i * yStep

/-- The candidate origins of one quirk-free scale level: all grid points
of the processing rectangle at the given step whose score is positive,
in raster order. -/
def gridCands (score : ℕ → ℕ → ℤ) (procW procH yStep : ℕ) : List (ℕ × ℕ × ℤ) :=
  (rowVisits procH yStep 0).flatMap fun y =>
    (rowVisits procW yStep 0).filterMap fun x =>
      if 0 < score x y then some (x, y, score x y) else none

/-- The candidates one scale level is expected to push: exactly one per
positive-scoring grid origin, with the rectangle of `candidateAt` —
`(cvRound(x*factor), cvRound(y*factor), windowSize)` — and the score as
its weight. -/
def levelCandidates (cls : Classifier) (img : Image) (f : Frac) : List Candidate :=
  (gridCands (fun x y => cls.classify img f x y)
      ((scaledImageSizeAt img f).width - cls.windowSize.width).toNat
      ((scaledImageSizeAt img f).height - cls.windowSize.height).toNat
      (yStepAt f)).map (candidateAt cls.windowSize f)

/-- The termination condition of the scale loop at a factor (lines
105-108): the processing rectangle is non-positive in either dimension, or
the scaled window exceeds the resolved `maxObjectSize` in either
dimension. -/
def breakCondAt (cls : Classifier) (p : Params) (img : Image) (f : Frac) : Bool :=
  decide ((scaledImageSizeAt img f).width - cls.windowSize.width ≤ 0 ∨
    (scaledImageSizeAt img f).height - cls.windowSize.height ≤ 0) ||
  decide ((maxObjectSize p img).width < (windowSizeAt cls.windowSize f).width ∨
    (maxObjectSize p img).height < (windowSizeAt cls.windowSize f).height)

/-- The skip condition of the scale loop at a factor (lines 109-110):
a factor is scanned only when the scaled window is at least
`minObjectSize` in both dimensions. -/
def minOkAt (cls : Classifier) (p : Params) (f : Frac) : Bool :=
  ! decide ((windowSizeAt cls.windowSize f).width < p.minSize ∨
      (windowSizeAt cls.windowSize f).height < p.minSize)

/-- The factor of the `n`-th step of the scale loop: `scaleFactor ^ n`
(the loop starts at 1 and multiplies by `scaleFactor` each step). -/
def factorAt (s : Frac) (n : ℕ) : Frac := ⟨s.num ^ n, s.den ^ n⟩

/-! ## Rational bounds and in-image lemmas -/

/-- `natMulF` denotes multiplication. -/
theorem toRat_natMulF (x : ℕ) (q : Frac) : (natMulF x q).toRat = (x : ℚ) * q.toRat := by
  unfold natMulF Frac.toRat
  push_cast
  ring

/-- `intMulF` denotes multiplication. -/
theorem toRat_intMulF (z : ℤ) (q : Frac) : (intMulF z q).toRat = (z : ℚ) * q.toRat := by
  unfold intMulF Frac.toRat
  push_cast
  ring

/-- `natDivF` denotes division. -/
theorem toRat_natDivF (c : ℕ) (q : Frac) : (natDivF c q).toRat = (c : ℚ) / q.toRat := by
  unfold natDivF Frac.toRat
  rw [div_div_eq_mul_div]
  push_cast
  ring_nf

/-- Rounding half to even moves a value by at most one half. -/
theorem roundHalfEven_bounds (n d : ℤ) (hd : 0 ≤ d) :
    (n : ℚ) / (d : ℚ) - 1/2 ≤ (roundHalfEven n d : ℚ) ∧
    (roundHalfEven n d : ℚ) ≤ (n : ℚ) / (d : ℚ) + 1/2 := by
  unfold roundHalfEven
  by_cases hd0 : d = 0
  · rw [if_pos hd0, hd0]
    rw [Int.cast_zero, div_zero]
    norm_num
  · rw [if_neg hd0]
    have hdpos : 0 < d := by omega
    have hdec : d * (n.fdiv d) + n.fmod d = n := Int.fdiv_add_fmod n d
    have hr0 : 0 ≤ n.fmod d := Int.fmod_nonneg' n hdpos
    have hrd : n.fmod d < d := Int.fmod_lt_of_pos n hdpos
    have hrQ : n - n.fdiv d * d = n.fmod d := by rw [mul_comm]; omega
    have hdQ : (0 : ℚ) < (d : ℚ) := by exact_mod_cast hdpos
    have ht : (n : ℚ) / (d : ℚ) = (n.fdiv d : ℚ) + (n.fmod d : ℚ) / (d : ℚ) := by
      have hcast : (n : ℚ) = (d : ℚ) * (n.fdiv d : ℚ) + (n.fmod d : ℚ) := by
        exact_mod_cast hdec.symm
      rw [hcast]
      field_simp
      ring
    have hfrac0 : (0 : ℚ) ≤ (n.fmod d : ℚ) / (d : ℚ) :=
      div_nonneg (by exact_mod_cast hr0) hdQ.le
    have hfrac1 : (n.fmod d : ℚ) / (d : ℚ) < 1 := by
      rw [div_lt_one hdQ]
      exact_mod_cast hrd
    by_cases hlt : 2 * (n - n.fdiv d * d) < d
    · rw [if_pos hlt]
      have hhalf : (n.fmod d : ℚ) / (d : ℚ) < 1/2 := by
        rw [div_lt_iff₀ hdQ]
        have h2 : (2 : ℚ) * (n.fmod d : ℚ) < (d : ℚ) := by
          rw [hrQ] at hlt
          exact_mod_cast hlt
        linarith
      constructor <;> rw [ht] <;> linarith
    · rw [if_neg hlt]
      by_cases hgt : d < 2 * (n - n.fdiv d * d)
      · rw [if_pos hgt]
        have hhalf : 1/2 < (n.fmod d : ℚ) / (d : ℚ) := by
          rw [lt_div_iff₀ hdQ]
          have h2 : (d : ℚ) < 2 * (n.fmod d : ℚ) := by
            rw [hrQ] at hgt
            exact_mod_cast hgt
          linarith
        push_cast
        constructor <;> rw [ht] <;> linarith
      · rw [if_neg hgt]
        have heq : (n.fmod d : ℚ) / (d : ℚ) = 1/2 := by
          rw [div_eq_iff (ne_of_gt hdQ)]
          have h2 : 2 * (n.fmod d) = d := by rw [← hrQ]; omega
          have h2Q : (2 : ℚ) * (n.fmod d : ℚ) = (d : ℚ) := by exact_mod_cast h2
          linarith
        by_cases hev : n.fdiv d % 2 = 0
        · rw [if_pos hev]
          constructor <;> rw [ht, heq] <;> linarith
        · rw [if_neg hev]
          push_cast
          constructor <;> rw [ht, heq] <;> linarith

/-- `cvRoundF` moves the denoted rational by at most one half. -/
theorem cvRoundF_bounds (q : Frac) :
    q.toRat - 1/2 ≤ (cvRoundF q : ℚ) ∧ (cvRoundF q : ℚ) ≤ q.toRat + 1/2 := by
  unfold cvRoundF
  by_cases hneg : q.den < 0
  · rw [if_pos hneg]
    have htr : q.toRat = ((-q.num : ℤ) : ℚ) / ((-q.den : ℤ) : ℚ) := by
      unfold Frac.toRat
      push_cast
      rw [div_neg, neg_div, neg_neg]
    rw [htr]
    exact roundHalfEven_bounds (-q.num) (-q.den) (by omega)
  · rw [if_neg hneg]
    have htr : q.toRat = (q.num : ℚ) / (q.den : ℚ) := rfl
    rw [htr]
    exact roundHalfEven_bounds q.num q.den (by omega)

/-- `cvRoundF` of a non-negative rational is non-negative. -/
theorem cvRoundF_nonneg (q : Frac) (h : 0 ≤ q.toRat) : 0 ≤ cvRoundF q := by
  have hb := (cvRoundF_bounds q).1
  have h1 : (-1 : ℚ) < (cvRoundF q : ℚ) := by linarith
  have h2 : (-1 : ℤ) < cvRoundF q := by exact_mod_cast h1
  omega

/-- One axis of a candidate rectangle stays inside the image: if the
window origin is inside the processing rectangle
`round(c/factor) - w0`, then the rounded back-projected origin is
non-negative and origin plus rounded window extent is at most `c`. -/
theorem cand_axis_bound (c : ℕ) (w0 : ℤ) (f : Frac) (x : ℕ)
    (hw0 : 0 < w0)
    (hx : (x : ℤ) < cvRoundF (natDivF c f) - w0) :
    0 ≤ cvRoundF (natMulF x f) ∧
    cvRoundF (natMulF x f) + cvRoundF (intMulF w0 f) ≤ (c : ℤ) := by
  set t := f.toRat with htdef
  have hR := (cvRoundF_bounds (natDivF c f)).2
  rw [toRat_natDivF] at hR
  have hRx : ((x : ℤ) : ℚ) + (w0 : ℚ) + 1 ≤ (cvRoundF (natDivF c f) : ℚ) := by
    have : (x : ℤ) + w0 + 1 ≤ cvRoundF (natDivF c f) := by omega
    exact_mod_cast this
  have hR2 : (2 : ℚ) ≤ (cvRoundF (natDivF c f) : ℚ) := by
    have h1 : (1 : ℤ) ≤ w0 := hw0
    have h2 : (2 : ℤ) ≤ cvRoundF (natDivF c f) := by omega
    exact_mod_cast h2
  have hct : (3 : ℚ) / 2 ≤ (c : ℚ) / t := by linarith
  have htpos : 0 < t := by
    rcases lt_trichotomy t 0 with hneg | hzero | hpos
    · have : (c : ℚ) / t ≤ 0 :=
        div_nonpos_of_nonneg_of_nonpos (by positivity) hneg.le
      linarith
    · rw [hzero] at hct
      norm_num at hct
    · exact hpos
  have hcpos : (0 : ℚ) < (c : ℚ) := by
    by_contra hc0
    push_neg at hc0
    have : (c : ℚ) / t ≤ 0 := div_nonpos_of_nonpos_of_nonneg hc0 htpos.le
    linarith
  -- upper bounds on the two rounded products
  have hxf := (cvRoundF_bounds (natMulF x f)).2
  rw [toRat_natMulF] at hxf
  have hwf := (cvRoundF_bounds (intMulF w0 f)).2
  rw [toRat_intMulF] at hwf
  -- (x + w0) ≤ R - 1, multiplied by t > 0
  have hmul : (((x : ℕ) : ℚ) + (w0 : ℚ)) * t ≤
      ((cvRoundF (natDivF c f) : ℚ) - 1) * t := by
    apply mul_le_mul_of_nonneg_right _ htpos.le
    have : ((x : ℕ) : ℚ) = ((x : ℤ) : ℚ) := by push_cast; ring
    rw [this]
    linarith
  -- (R - 1) * t ≤ c - t/2
  have hmul2 : ((cvRoundF (natDivF c f) : ℚ) - 1) * t ≤ (c : ℚ) - t / 2 := by
    have h1 : (cvRoundF (natDivF c f) : ℚ) - 1 ≤ (c : ℚ) / t - 1/2 := by linarith
    have h2 : ((cvRoundF (natDivF c f) : ℚ) - 1) * t ≤ ((c : ℚ) / t - 1/2) * t :=
      mul_le_mul_of_nonneg_right h1 htpos.le
    have h3 : ((c : ℚ) / t - 1/2) * t = (c : ℚ) - t / 2 := by
      field_simp
      ring
    linarith
  have hsum : (cvRoundF (natMulF x f) : ℚ) + (cvRoundF (intMulF w0 f) : ℚ) <
      (c : ℚ) + 1 := by
    have hdist : (((x : ℕ) : ℚ)) * t + (w0 : ℚ) * t = (((x : ℕ) : ℚ) + (w0 : ℚ)) * t := by
      ring
    nlinarith [hxf, hwf, hmul, hmul2]
  constructor
  · apply cvRoundF_nonneg
    rw [toRat_natMulF]
    positivity
  · have : ((cvRoundF (natMulF x f) + cvRoundF (intMulF w0 f) : ℤ) : ℚ) <
        ((c : ℤ) : ℚ) + 1 := by push_cast; push_cast at hsum; linarith
    have h4 : cvRoundF (natMulF x f) + cvRoundF (intMulF w0 f) < (c : ℤ) + 1 := by
      exact_mod_cast this
    omega

/-- Every pair a completed row scan emits has its position inside the
processing rectangle. -/
theorem rowScan_mem_lt (score : ℕ → ℤ) (procW yStep : ℕ) :
    ∀ fuel x res, rowScan score procW yStep fuel x = some res →
      ∀ pr ∈ res, pr.1 < procW := by
  intro fuel
  induction fuel with
  | zero => intro x res h; simp [rowScan] at h
  | succ n ih =>
    intro x res h pr hpr
    by_cases hx : x < procW
    · simp only [rowScan, if_pos hx] at h
      by_cases hp : 0 < score x
      · rw [if_pos hp] at h
        cases hr : rowScan score procW yStep n ((if score x = 0 then yStep else x) + yStep) with
        | none => rw [hr] at h; simp at h
        | some l =>
          rw [hr] at h
          simp only [Option.map_some'] at h
          rw [← Option.some_inj.mp h] at hpr
          rcases List.mem_cons.mp hpr with hhd | htl
          · subst hhd; exact hx
          · exact ih _ l hr pr htl
      · rw [if_neg hp] at h
        exact ih _ res h pr hpr
    · simp only [rowScan, if_neg hx] at h
      rw [← Option.some_inj.mp h] at hpr
      simp at hpr

/-- Every triple a completed raster scan emits has its origin inside the
processing rectangle. -/
theorem colScan_mem_lt (score : ℕ → ℕ → ℤ) (procW procH yStep : ℕ) :
    ∀ fuel y res, colScan score procW procH yStep fuel y = some res →
      ∀ tr ∈ res, tr.1 < procW ∧ tr.2.1 < procH := by
  intro fuel
  induction fuel with
  | zero => intro y res h; simp [colScan] at h
  | succ n ih =>
    intro y res h tr htr
    by_cases hy : y < procH
    · simp only [colScan, if_pos hy] at h
      cases hrow : rowScan (fun x => score x y) procW yStep (n+1) 0 with
      | none => rw [hrow] at h; simp at h
      | some row =>
        cases hrest : colScan score procW procH yStep n (y + yStep) with
        | none => rw [hrow, hrest] at h; simp at h
        | some rest =>
          rw [hrow, hrest] at h
          rw [← Option.some_inj.mp h] at htr
          rcases List.mem_append.mp htr with hl | hr
          · obtain ⟨pr, hpr, hmap⟩ := List.mem_map.mp hl
            subst hmap
            exact ⟨rowScan_mem_lt (fun x => score x y) procW yStep (n+1) 0 row hrow pr hpr, hy⟩
          · exact ih _ rest hrest tr hr
    · simp only [colScan, if_neg hy] at h
      rw [← Option.some_inj.mp h] at htr
      simp at htr

/-- Every candidate of a completed scale loop lies within the image. -/
theorem scaleLoop_cands_within (cls : Classifier) (p : Params) (img : Image)
    (hw : 0 < cls.windowSize.width) (hh : 0 < cls.windowSize.height) :
    ∀ fuel φ out, scaleLoop cls p img fuel φ = some out →
      ∀ lv ∈ out, ∀ cd ∈ lv.2, withinImage img cd.1 := by
  intro fuel
  induction fuel with
  | zero => intro φ out h; simp [scaleLoop] at h
  | succ n ih =>
    intro φ out h
    simp only [scaleLoop] at h
    by_cases hbr1 : (scaledImageSizeAt img φ).width - cls.windowSize.width ≤ 0 ∨
        (scaledImageSizeAt img φ).height - cls.windowSize.height ≤ 0
    · rw [if_pos hbr1] at h
      rw [← Option.some_inj.mp h]
      intro lv hlv; simp at hlv
    · rw [if_neg hbr1] at h
      by_cases hbr2 : (maxObjectSize p img).width < (windowSizeAt cls.windowSize φ).width ∨
          (maxObjectSize p img).height < (windowSizeAt cls.windowSize φ).height
      · rw [if_pos hbr2] at h
        rw [← Option.some_inj.mp h]
        intro lv hlv; simp at hlv
      · rw [if_neg hbr2] at h
        by_cases hmin : (windowSizeAt cls.windowSize φ).width < p.minSize ∨
            (windowSizeAt cls.windowSize φ).height < p.minSize
        · rw [if_pos hmin] at h
          exact ih _ out h
        · rw [if_neg hmin] at h
          cases hc : colScan (fun x y => cls.classify img φ x y)
              ((scaledImageSizeAt img φ).width - cls.windowSize.width).toNat
              ((scaledImageSizeAt img φ).height - cls.windowSize.height).toNat
              (yStepAt φ) (n+1) 0 with
          | none => rw [hc] at h; simp at h
          | some pts =>
            cases hrest : scaleLoop cls p img n (φ.mul p.scaleFactor) with
            | none => rw [hc, hrest] at h; simp at h
            | some rest =>
              rw [hc, hrest] at h
              intro lv hlv
              rw [← Option.some_inj.mp h] at hlv
              rcases List.mem_cons.mp hlv with hhd | htl
              · subst hhd
                intro cd hcd
                obtain ⟨tr, htr, hmap⟩ := List.mem_map.mp hcd
                obtain ⟨hxlt, hylt⟩ := colScan_mem_lt _ _ _ _ (n+1) 0 pts hc tr htr
                subst hmap
                push_neg at hbr1
                obtain ⟨hw1, hh1⟩ := hbr1
                have hsw : (scaledImageSizeAt img φ).width =
                    cvRoundF (natDivF img.cols φ) := rfl
                have hsh : (scaledImageSizeAt img φ).height =
                    cvRoundF (natDivF img.rows φ) := rfl
                have hxI : (tr.1 : ℤ) <
                    cvRoundF (natDivF img.cols φ) - cls.windowSize.width := by
                  have h1 : (tr.1 : ℤ) <
                      (((scaledImageSizeAt img φ).width - cls.windowSize.width).toNat : ℤ) := by
                    exact_mod_cast hxlt
                  rw [Int.toNat_of_nonneg (by omega)] at h1
                  omega
                have hyI : (tr.2.1 : ℤ) <
                    cvRoundF (natDivF img.rows φ) - cls.windowSize.height := by
                  have h1 : (tr.2.1 : ℤ) <
                      (((scaledImageSizeAt img φ).height - cls.windowSize.height).toNat : ℤ) := by
                    exact_mod_cast hylt
                  rw [Int.toNat_of_nonneg (by omega)] at h1
                  omega
                obtain ⟨hx0, hxw⟩ := cand_axis_bound img.cols cls.windowSize.width φ tr.1 hw hxI
                obtain ⟨hy0, hyh⟩ := cand_axis_bound img.rows cls.windowSize.height φ tr.2.1 hh hyI
                exact ⟨hx0, hy0, hxw, hyh⟩
              · exact ih _ rest hrest lv htl

/-- Clustering preserves membership: every class the fold builds is
non-empty and consists of processed candidates. -/
theorem foldl_addToClasses_invariant {P : Candidate → Prop} (eps : Frac) :
    ∀ (cands : List Candidate) (acc : List (List Candidate)),
      (∀ g ∈ acc, g ≠ [] ∧ ∀ m ∈ g, P m) →
      (∀ cd ∈ cands, P cd) →
      ∀ g ∈ cands.foldl (addToClasses eps) acc, g ≠ [] ∧ ∀ m ∈ g, P m := by
  intro cands
  induction cands with
  | nil => intro acc hacc _ g hg; exact hacc g hg
  | cons c rest ih =>
    intro acc hacc hc g hg
    rw [List.foldl_cons] at hg
    refine ih (addToClasses eps acc c) ?_ (fun cd hcd => hc cd (List.mem_cons_of_mem c hcd)) g hg
    intro g' hg'
    unfold addToClasses at hg'
    rcases List.mem_append.mp hg' with hfil | hnew
    · have : g' ∈ acc := by
        rw [List.partition_eq_filter_filter] at hfil
        exact List.mem_of_mem_filter hfil
      exact hacc g' this
    · have hg'' : g' = (acc.partition fun g => g.any fun m => similarRects eps m.1 c.1).1.flatten ++ [c] := by
        simpa using hnew
      subst hg''
      constructor
      · simp
      · intro m hm
        rcases List.mem_append.mp hm with hfl | hc'
        · obtain ⟨g'', hg'', hm''⟩ := List.mem_flatten.mp hfl
          have : g'' ∈ acc := by
            rw [List.partition_eq_filter_filter] at hg''
            exact List.mem_of_mem_filter hg''
          exact (hacc g'' this).2 m hm''
        · have hmc : m = c := by simpa using hc'
          rw [hmc]
          exact hc c (List.mem_cons_self c rest)

/-- Sums of mapped lists add pointwise. -/
theorem intSum_map_add (g : List Candidate) (f1 f2 : Candidate → ℤ) :
    (g.map f1).sum + (g.map f2).sum = (g.map fun m => f1 m + f2 m).sum := by
  induction g with
  | nil => simp
  | cons a l ih =>
    simp only [List.map_cons, List.sum_cons]
    rw [← ih]
    ring

/-- A sum of elements bounded by `c` is at most `length * c`. -/
theorem intSum_le_const (g : List Candidate) (f1 : Candidate → ℤ) (c : ℤ)
    (h : ∀ m ∈ g, f1 m ≤ c) : (g.map f1).sum ≤ (g.length : ℤ) * c := by
  induction g with
  | nil => simp
  | cons a l ih =>
    simp only [List.map_cons, List.sum_cons, List.length_cons]
    have h1 : f1 a ≤ c := h a (List.mem_cons_self a l)
    have h2 : (l.map f1).sum ≤ (l.length : ℤ) * c :=
      ih fun m hm => h m (List.mem_cons_of_mem a hm)
    push_cast
    nlinarith

/-- A sum of non-negative elements is non-negative. -/
theorem intSum_nonneg (g : List Candidate) (f1 : Candidate → ℤ)
    (h : ∀ m ∈ g, 0 ≤ f1 m) : 0 ≤ (g.map f1).sum := by
  induction g with
  | nil => simp
  | cons a l ih =>
    simp only [List.map_cons, List.sum_cons]
    have h1 := h a (List.mem_cons_self a l)
    have h2 := ih fun m hm => h m (List.mem_cons_of_mem a hm)
    omega

/-- The rounded average of non-negative components is non-negative. -/
theorem avg_component_bounds (g : List Candidate) (f1 : Candidate → ℤ)
    (hnn : ∀ m ∈ g, 0 ≤ f1 m) :
    0 ≤ cvRoundF ⟨(g.map f1).sum, (g.length : ℤ)⟩ := by
  apply cvRoundF_nonneg
  unfold Frac.toRat
  apply div_nonneg
  · exact_mod_cast intSum_nonneg g f1 hnn
  · positivity

/-- Rounding the two averages of a component pair bounded by `c` adds at
most one: the rounded averages sum to at most `c + 1`. -/
theorem avg_pair_bound (g : List Candidate) (f1 f2 : Candidate → ℤ) (c : ℤ)
    (hg : g ≠ []) (hsum : ∀ m ∈ g, f1 m + f2 m ≤ c) :
    cvRoundF ⟨(g.map f1).sum, (g.length : ℤ)⟩ +
      cvRoundF ⟨(g.map f2).sum, (g.length : ℤ)⟩ ≤ c + 1 := by
  have hlen : 0 < g.length := List.length_pos.mpr hg
  have hlenQ : (0 : ℚ) < (g.length : ℚ) := by exact_mod_cast hlen
  have hs : (g.map f1).sum + (g.map f2).sum ≤ (g.length : ℤ) * c := by
    rw [intSum_map_add]
    exact intSum_le_const g _ c hsum
  have h1 := (cvRoundF_bounds ⟨(g.map f1).sum, (g.length : ℤ)⟩).2
  have h2 := (cvRoundF_bounds ⟨(g.map f2).sum, (g.length : ℤ)⟩).2
  unfold Frac.toRat at h1 h2
  simp only at h1 h2
  have hsQ : ((g.map f1).sum : ℚ) + ((g.map f2).sum : ℚ) ≤ (g.length : ℚ) * (c : ℚ) := by
    exact_mod_cast hs
  have hdiv : ((g.map f1).sum : ℚ) / ((g.length : ℤ) : ℚ) +
      ((g.map f2).sum : ℚ) / ((g.length : ℤ) : ℚ) ≤ (c : ℚ) := by
    rw [div_add_div_same, div_le_iff₀ (by exact_mod_cast hlenQ)]
    push_cast
    push_cast at hsQ
    linarith
  have hQ : (cvRoundF ⟨(g.map f1).sum, (g.length : ℤ)⟩ : ℚ) +
      (cvRoundF ⟨(g.map f2).sum, (g.length : ℤ)⟩ : ℚ) ≤ (c : ℚ) + 1 := by
    linarith
  exact_mod_cast hQ

/-- The representative rectangle of a class of in-image members lies
within the image enlarged by one pixel. -/
theorem avgRect_within (img : Image) (g : List Candidate) (hg : g ≠ [])
    (hP : ∀ m ∈ g, withinImage img m.1) :
    withinImagePlusOne img (avgRect g) := by
  unfold avgRect withinImagePlusOne
  refine ⟨?_, ?_, ?_, ?_⟩
  · exact avg_component_bounds g _ fun m hm => (hP m hm).1
  · exact avg_component_bounds g _ fun m hm => (hP m hm).2.1
  · exact avg_pair_bound g _ _ _ hg fun m hm => (hP m hm).2.2.1
  · exact avg_pair_bound g _ _ _ hg fun m hm => (hP m hm).2.2.2

/-- Every surviving detection of in-image candidates lies within the
image enlarged by one pixel. -/
theorem groupDetections_within (img : Image) (minN : ℤ) (eps : Frac)
    (cands : List Candidate) (hc : ∀ cd ∈ cands, withinImage img cd.1) :
    ∀ d ∈ groupDetections minN eps cands, withinImagePlusOne img d.1 := by
  intro d hd
  unfold groupDetections at hd
  obtain ⟨gcl, hgcl, hmap⟩ := List.mem_map.mp hd
  have hg1 : gcl ∈ rectClasses eps cands := List.mem_of_mem_filter hgcl
  have hg2 := foldl_addToClasses_invariant (P := fun cd => withinImage img cd.1)
    eps cands [] (by simp) hc gcl hg1
  rw [← hmap]
  exact avgRect_within img gcl hg2.1 hg2.2

/-- Every candidate of a completed scan lies within the image. -/
theorem scanCandidates_within (cls : Classifier) (p : Params) (img : Image)
    (fuel : ℕ) (cands : List Candidate)
    (hw : 0 < cls.windowSize.width) (hh : 0 < cls.windowSize.height)
    (h : scanCandidates cls p img fuel = some cands) :
    ∀ cd ∈ cands, withinImage img cd.1 := by
  unfold scanCandidates at h
  cases hs : scanImage cls p img fuel with
  | none => rw [hs] at h; simp at h
  | some out =>
    rw [hs] at h
    simp only [Option.map_some'] at h
    intro cd hcd
    rw [← Option.some_inj.mp h] at hcd
    obtain ⟨l, hl, hcdl⟩ := List.mem_flatten.mp hcd
    obtain ⟨lv, hlv, hl2⟩ := List.mem_map.mp hl
    subst hl2
    exact scaleLoop_cands_within cls p img hw hh fuel ⟨1, 1⟩ out hs lv hlv cd hcdl

/-- Every rectangle attached to an emitted record lies within the image
enlarged by one pixel. -/
theorem projectMat_faces_within (cls : Classifier) (p : Params) (fm : FileMeta)
    (img : Image) (fuel : ℕ) (recs : List Template)
    (hw : 0 < cls.windowSize.width) (hh : 0 < cls.windowSize.height)
    (h : projectMat cls p fm img fuel = some recs) :
    ∀ u ∈ recs, ∀ r, u.file.face = some r → withinImagePlusOne img r := by
  unfold projectMat at h
  cases hs : scanCandidates cls p img fuel with
  | none => rw [hs] at h; simp at h
  | some cands =>
    rw [hs] at h
    simp only [Option.map_some'] at h
    intro u hu r hr
    rw [← Option.some_inj.mp h] at hu
    obtain ⟨j, hj, hu2⟩ := List.mem_map.mp hu
    rw [← hu2] at hr
    simp only [mkRecord] at hr
    have hrget : r ∈ (if fm.enrollAll = false ∧
        (groupDetections p.minNeighbors p.eps cands).map Prod.fst = []
        then ((groupDetections p.minNeighbors p.eps cands).map Prod.fst) ++
          [⟨0, 0, (img.cols : ℤ), (img.rows : ℤ)⟩]
        else (groupDetections p.minNeighbors p.eps cands).map Prod.fst) := by
      have hjlen := List.mem_range.mp hj
      have hrr := Option.some_inj.mp hr
      rw [← hrr]
      rw [List.getD_eq_getElem?_getD, List.getElem?_eq_getElem hjlen]
      exact List.getElem_mem hjlen
    have hdetsP : ∀ d ∈ groupDetections p.minNeighbors p.eps cands,
        withinImagePlusOne img d.1 :=
      groupDetections_within img p.minNeighbors p.eps cands
        (scanCandidates_within cls p img fuel cands hw hh hs)
    have hfromDets : ∀ rr ∈ (groupDetections p.minNeighbors p.eps cands).map Prod.fst,
        withinImagePlusOne img rr := by
      intro rr hrr
      obtain ⟨d, hd, hd2⟩ := List.mem_map.mp hrr
      rw [← hd2]
      exact hdetsP d hd
    by_cases hcond : fm.enrollAll = false ∧
        (groupDetections p.minNeighbors p.eps cands).map Prod.fst = []
    · rw [if_pos hcond] at hrget
      rcases List.mem_append.mp hrget with hin | hfull
      · exact hfromDets r hin
      · have : r = ⟨0, 0, (img.cols : ℤ), (img.rows : ℤ)⟩ := by simpa using hfull
        rw [this]
        refine ⟨le_refl 0, le_refl 0, ?_, ?_⟩
        · show (0 : ℤ) + (img.cols : ℤ) ≤ (img.cols : ℤ) + 1
          omega
        · show (0 : ℤ) + (img.rows : ℤ) ≤ (img.rows : ℤ) + 1
          omega
    · rw [if_neg hcond] at hrget
      exact hfromDets r hrget

/-! ## Determinism of the scanner -/

/-- Two completed runs of the inner horizontal loop from the same state
agree, whatever their fuel. -/
theorem rowScan_some_unique (score : ℕ → ℤ) (procW yStep : ℕ) :
    ∀ f1 f2 x r1 r2, rowScan score procW yStep f1 x = some r1 →
      rowScan score procW yStep f2 x = some r2 → r1 = r2 := by
  intro f1
  induction f1 with
  | zero => intro f2 x r1 r2 h1 h2; simp [rowScan] at h1
  | succ n ih =>
    intro f2 x r1 r2 h1 h2
    cases f2 with
    | zero => simp [rowScan] at h2
    | succ m =>
      by_cases hx : x < procW
      · simp only [rowScan, if_pos hx] at h1 h2
        cases hr1 : rowScan score procW yStep n
            ((if score x = 0 then yStep else x) + yStep) with
        | none => rw [hr1] at h1; by_cases hp : 0 < score x <;>
            simp [hp] at h1
        | some l1 =>
          cases hr2 : rowScan score procW yStep m
              ((if score x = 0 then yStep else x) + yStep) with
          | none => rw [hr2] at h2; by_cases hp : 0 < score x <;>
              simp [hp] at h2
          | some l2 =>
            rw [hr1] at h1; rw [hr2] at h2
            have hl : l1 = l2 := ih m _ l1 l2 hr1 hr2
            subst hl
            by_cases hp : 0 < score x <;> simp [hp] at h1 h2 <;>
              rw [← h1, ← h2]
      · simp only [rowScan, if_neg hx] at h1 h2
        rw [← Option.some_inj.mp h1, ← Option.some_inj.mp h2]

/-- Two completed runs of the raster scan from the same state agree. -/
theorem colScan_some_unique (score : ℕ → ℕ → ℤ) (procW procH yStep : ℕ) :
    ∀ f1 f2 y r1 r2, colScan score procW procH yStep f1 y = some r1 →
      colScan score procW procH yStep f2 y = some r2 → r1 = r2 := by
  intro f1
  induction f1 with
  | zero => intro f2 y r1 r2 h1 h2; simp [colScan] at h1
  | succ n ih =>
    intro f2 y r1 r2 h1 h2
    cases f2 with
    | zero => simp [colScan] at h2
    | succ m =>
      by_cases hy : y < procH
      · simp only [colScan, if_pos hy] at h1 h2
        cases hrow1 : rowScan (fun x => score x y) procW yStep (n+1) 0 with
        | none => rw [hrow1] at h1; simp at h1
        | some row1 =>
          cases hrest1 : colScan score procW procH yStep n (y + yStep) with
          | none => rw [hrow1, hrest1] at h1; simp at h1
          | some rest1 =>
            cases hrow2 : rowScan (fun x => score x y) procW yStep (m+1) 0 with
            | none => rw [hrow2] at h2; simp at h2
            | some row2 =>
              cases hrest2 : colScan score procW procH yStep m (y + yStep) with
              | none => rw [hrow2, hrest2] at h2; simp at h2
              | some rest2 =>
                rw [hrow1, hrest1] at h1
                rw [hrow2, hrest2] at h2
                have hrow : row1 = row2 :=
                  rowScan_some_unique (fun x => score x y) procW yStep
                    (n+1) (m+1) 0 row1 row2 hrow1 hrow2
                have hrest : rest1 = rest2 := ih m _ rest1 rest2 hrest1 hrest2
                rw [← Option.some_inj.mp h1, ← Option.some_inj.mp h2, hrow, hrest]
      · simp only [colScan, if_neg hy] at h1 h2
        rw [← Option.some_inj.mp h1, ← Option.some_inj.mp h2]

/-- Two completed runs of the scale loop from the same factor agree. -/
theorem scaleLoop_some_unique (cls : Classifier) (p : Params) (img : Image) :
    ∀ f1 f2 φ r1 r2, scaleLoop cls p img f1 φ = some r1 →
      scaleLoop cls p img f2 φ = some r2 → r1 = r2 := by
  intro f1
  induction f1 with
  | zero => intro f2 φ r1 r2 h1 h2; simp [scaleLoop] at h1
  | succ n ih =>
    intro f2 φ r1 r2 h1 h2
    cases f2 with
    | zero => simp [scaleLoop] at h2
    | succ m =>
      simp only [scaleLoop] at h1 h2
      by_cases hbr1 : (scaledImageSizeAt img φ).width - cls.windowSize.width ≤ 0 ∨
          (scaledImageSizeAt img φ).height - cls.windowSize.height ≤ 0
      · rw [if_pos hbr1] at h1 h2
        rw [← Option.some_inj.mp h1, ← Option.some_inj.mp h2]
      · rw [if_neg hbr1] at h1 h2
        by_cases hbr2 : (maxObjectSize p img).width < (windowSizeAt cls.windowSize φ).width ∨
            (maxObjectSize p img).height < (windowSizeAt cls.windowSize φ).height
        · rw [if_pos hbr2] at h1 h2
          rw [← Option.some_inj.mp h1, ← Option.some_inj.mp h2]
        · rw [if_neg hbr2] at h1 h2
          by_cases hmin : (windowSizeAt cls.windowSize φ).width < p.minSize ∨
              (windowSizeAt cls.windowSize φ).height < p.minSize
          · rw [if_pos hmin] at h1 h2
            exact ih m _ r1 r2 h1 h2
          · rw [if_neg hmin] at h1 h2
            cases hc1 : colScan (fun x y => cls.classify img φ x y)
                ((scaledImageSizeAt img φ).width - cls.windowSize.width).toNat
                ((scaledImageSizeAt img φ).height - cls.windowSize.height).toNat
                (yStepAt φ) (n+1) 0 with
            | none => rw [hc1] at h1; simp at h1
            | some pts1 =>
              cases hrest1 : scaleLoop cls p img n (φ.mul p.scaleFactor) with
              | none => rw [hc1, hrest1] at h1; simp at h1
              | some rest1 =>
                cases hc2 : colScan (fun x y => cls.classify img φ x y)
                    ((scaledImageSizeAt img φ).width - cls.windowSize.width).toNat
                    ((scaledImageSizeAt img φ).height - cls.windowSize.height).toNat
                    (yStepAt φ) (m+1) 0 with
                | none => rw [hc2] at h2; simp at h2
                | some pts2 =>
                  cases hrest2 : scaleLoop cls p img m (φ.mul p.scaleFactor) with
                  | none => rw [hc2, hrest2] at h2; simp at h2
                  | some rest2 =>
                    rw [hc1, hrest1] at h1
                    rw [hc2, hrest2] at h2
                    have hpts : pts1 = pts2 :=
                      colScan_some_unique _ _ _ _ (n+1) (m+1) 0 pts1 pts2 hc1 hc2
                    have hrest : rest1 = rest2 := ih m _ rest1 rest2 hrest1 hrest2
                    rw [← Option.some_inj.mp h1, ← Option.some_inj.mp h2, hpts, hrest]

/-! ## Lemmas: grid characterisation and factor trace -/

/-- A row visit list is empty once the cursor passes the rectangle. -/
theorem rowVisits_stop (procW yStep x : ℕ) (h : procW ≤ x) :
    rowVisits procW yStep x = [] := by
  unfold rowVisits
  have h0 : procW - x = 0 := by omega
  rw [h0]
  cases yStep with
  | zero => rfl
  | succ k =>
    have h2 : (0 + (k+1) - 1) / (k+1) = 0 := Nat.div_eq_of_lt (by omega)
    rw [h2]; rfl

/-- A row visit list starts at its cursor and continues one step on. -/
theorem rowVisits_cons (procW yStep x : ℕ) (hx : x < procW) (hs : 0 < yStep) :
    rowVisits procW yStep x = x :: rowVisits procW yStep (x + yStep) := by
  unfold rowVisits
  have hk : (procW - x + yStep - 1) / yStep
      = (procW - (x + yStep) + yStep - 1) / yStep + 1 := by
    rcases le_or_lt (procW - x) yStep with hle | hlt
    · have h1 : procW - (x + yStep) = 0 := by omega
      rw [h1]
      have h2 : (0 + yStep - 1) / yStep = 0 := Nat.div_eq_of_lt (by omega)
      rw [h2]
      have h3 : procW - x + yStep - 1 = (procW - x - 1) + yStep := by omega
      rw [h3, Nat.add_div_right _ hs]
      have h4 : (procW - x - 1) / yStep = 0 := Nat.div_eq_of_lt (by omega)
      rw [h4]
    · have h3 : procW - x + yStep - 1 = (procW - (x + yStep) + yStep - 1) + yStep := by
        omega
      rw [h3, Nat.add_div_right _ hs]
  rw [hk, List.range_succ_eq_map, List.map_cons, List.map_map]
  have hf : ((fun i => x + i * yStep) ∘ Nat.succ) =
      fun i => (x + yStep) + i * yStep := by
    funext i
    simp only [Function.comp_apply, Nat.succ_mul]
    ring
  rw [hf]
  simp

/-- When the classifier never returns a zero score, a completed row scan
emits exactly one pair per positive-scoring visited position, in order. -/
theorem rowScan_some_no_zero (score : ℕ → ℤ) (procW yStep : ℕ) (hs : 0 < yStep)
    (hz : ∀ z, score z ≠ 0) :
    ∀ fuel x res, rowScan score procW yStep fuel x = some res →
      res = (rowVisits procW yStep x).filterMap
        fun z => if 0 < score z then some (z, score z) else none := by
  intro fuel
  induction fuel with
  | zero => intro x res h; simp [rowScan] at h
  | succ n ih =>
    intro x res h
    by_cases hx : x < procW
    · simp only [rowScan, if_pos hx, if_neg (hz x)] at h
      rw [rowVisits_cons procW yStep x hx hs, List.filterMap_cons]
      by_cases hp : 0 < score x
      · rw [if_pos hp] at h
        cases hr : rowScan score procW yStep n (x + yStep) with
        | none => rw [hr] at h; simp at h
        | some l =>
          rw [hr] at h
          simp only [Option.map_some'] at h
          rw [if_pos hp, ← Option.some_inj.mp h, ih (x + yStep) l hr]
      · rw [if_neg hp] at h
        rw [if_neg hp]
        exact ih (x + yStep) res h
    · simp only [rowScan, if_neg hx] at h
      rw [rowVisits_stop procW yStep x (by omega), ← Option.some_inj.mp h]
      rfl

/-- When the classifier never returns a zero score, a completed raster
scan of one level produces exactly the positive grid origins. -/
theorem colScan_some_no_zero (score : ℕ → ℕ → ℤ) (procW procH yStep : ℕ)
    (hs : 0 < yStep) (hz : ∀ x y, score x y ≠ 0) :
    ∀ fuel y res, colScan score procW procH yStep fuel y = some res →
      res = (rowVisits procH yStep y).flatMap fun yy =>
        (rowVisits procW yStep 0).filterMap fun x =>
          if 0 < score x yy then some (x, yy, score x yy) else none := by
  intro fuel
  induction fuel with
  | zero => intro y res h; simp [colScan] at h
  | succ n ih =>
    intro y res h
    by_cases hy : y < procH
    · simp only [colScan, if_pos hy] at h
      cases hrow : rowScan (fun x => score x y) procW yStep (n+1) 0 with
      | none => rw [hrow] at h; simp at h
      | some row =>
        cases hrest : colScan score procW procH yStep n (y + yStep) with
        | none => rw [hrow, hrest] at h; simp at h
        | some rest =>
          rw [hrow, hrest] at h
          have hrw : row = (rowVisits procW yStep 0).filterMap
              fun x => if 0 < score x y then some (x, score x y) else none :=
            rowScan_some_no_zero (fun x => score x y) procW yStep hs
              (fun z => hz z y) (n+1) 0 row hrow
          have hmap : row.map (fun p => (p.1, y, p.2)) =
              (rowVisits procW yStep 0).filterMap
                fun x => if 0 < score x y then some (x, y, score x y) else none := by
            rw [hrw, List.map_filterMap]
            congr 1
            funext x
            by_cases hp : 0 < score x y <;> simp [hp]
          rw [rowVisits_cons procH yStep y hy hs, List.flatMap_cons,
            ← Option.some_inj.mp h, hmap, ih (y + yStep) rest hrest]
    · simp only [colScan, if_neg hy] at h
      rw [rowVisits_stop procH yStep y (by omega), ← Option.some_inj.mp h]
      rfl

/-- When the classifier never returns a zero score, every level of a
completed scale loop carries exactly its expected candidates. -/
theorem scaleLoop_levels_no_zero (cls : Classifier) (p : Params) (img : Image)
    (hz : ∀ f x y, cls.classify img f x y ≠ 0) :
    ∀ fuel φ out, scaleLoop cls p img fuel φ = some out →
      ∀ lv ∈ out, lv.2 = levelCandidates cls img lv.1 := by
  intro fuel
  induction fuel with
  | zero => intro φ out h; simp [scaleLoop] at h
  | succ n ih =>
    intro φ out h
    simp only [scaleLoop] at h
    by_cases hbr1 : (scaledImageSizeAt img φ).width - cls.windowSize.width ≤ 0 ∨
        (scaledImageSizeAt img φ).height - cls.windowSize.height ≤ 0
    · rw [if_pos hbr1] at h
      rw [← Option.some_inj.mp h]
      intro lv hlv; simp at hlv
    · rw [if_neg hbr1] at h
      by_cases hbr2 : (maxObjectSize p img).width < (windowSizeAt cls.windowSize φ).width ∨
          (maxObjectSize p img).height < (windowSizeAt cls.windowSize φ).height
      · rw [if_pos hbr2] at h
        rw [← Option.some_inj.mp h]
        intro lv hlv; simp at hlv
      · rw [if_neg hbr2] at h
        by_cases hmin : (windowSizeAt cls.windowSize φ).width < p.minSize ∨
            (windowSizeAt cls.windowSize φ).height < p.minSize
        · rw [if_pos hmin] at h
          exact ih _ out h
        · rw [if_neg hmin] at h
          cases hc : colScan (fun x y => cls.classify img φ x y)
              ((scaledImageSizeAt img φ).width - cls.windowSize.width).toNat
              ((scaledImageSizeAt img φ).height - cls.windowSize.height).toNat
              (yStepAt φ) (n+1) 0 with
          | none => rw [hc] at h; simp at h
          | some pts =>
            cases hrest : scaleLoop cls p img n (φ.mul p.scaleFactor) with
            | none => rw [hc, hrest] at h; simp at h
            | some rest =>
              rw [hc, hrest] at h
              intro lv hlv
              rw [← Option.some_inj.mp h] at hlv
              rcases List.mem_cons.mp hlv with hhd | htl
              · subst hhd
                have hstep : 0 < yStepAt φ := by
                  unfold yStepAt; split <;> omega
                have hpts : pts = gridCands (fun x y => cls.classify img φ x y)
                    ((scaledImageSizeAt img φ).width - cls.windowSize.width).toNat
                    ((scaledImageSizeAt img φ).height - cls.windowSize.height).toNat
                    (yStepAt φ) :=
                  colScan_some_no_zero _ _ _ _ hstep (fun x y => hz φ x y)
                    (n+1) 0 pts hc
                simp only [levelCandidates, gridCands]
                rw [hpts]
                rfl
              · exact ih _ rest hrest lv htl

/-- A fraction is unchanged by multiplication with 1. -/
theorem mulF_one (φ : Frac) : φ.mul ⟨1, 1⟩ = φ := by
  cases φ; simp [Frac.mul]

/-- Multiplication by 1 on the left leaves a fraction unchanged. -/
theorem one_mulF (q : Frac) : Frac.mul ⟨1, 1⟩ q = q := by
  cases q; simp [Frac.mul]

/-- The zeroth factor is 1. -/
theorem factorAt_zero (s : Frac) : factorAt s 0 = ⟨1, 1⟩ := by
  simp [factorAt]

/-- Shifting the factor index by one multiplies the base in. -/
theorem mul_factorAt_succ (φ s : Frac) (n : ℕ) :
    φ.mul (factorAt s (n+1)) = (φ.mul s).mul (factorAt s n) := by
  cases φ; cases s
  simp only [Frac.mul, factorAt, pow_succ, Frac.mk.injEq]
  constructor <;> ring

/-- Splitting a filtered, mapped range at its head. -/
theorem range_succ_filter_map {α : Type} (f : ℕ → α) (q : ℕ → Bool) (N : ℕ) :
    ((List.range (N+1)).filter q).map f =
      (if q 0 then [f 0] else []) ++
        (((List.range N).filter fun n => q (n+1)).map fun n => f (n+1)) := by
  rw [List.range_succ_eq_map, List.filter_cons]
  by_cases h0 : q 0 <;>
    simp [h0, List.filter_map, List.map_map, Function.comp_def, Nat.succ_eq_add_one]

/-- A completed scale loop starting at any factor breaks at the first
terminal factor and scans exactly the non-skipped factors before it. -/
theorem scaleLoop_factor_trace (cls : Classifier) (p : Params) (img : Image) :
    ∀ fuel φ out, scaleLoop cls p img fuel φ = some out →
      ∃ N, (∀ m < N, breakCondAt cls p img (φ.mul (factorAt p.scaleFactor m)) = false) ∧
        breakCondAt cls p img (φ.mul (factorAt p.scaleFactor N)) = true ∧
        out.map Prod.fst = ((List.range N).filter fun n =>
            minOkAt cls p (φ.mul (factorAt p.scaleFactor n))).map
          fun n => φ.mul (factorAt p.scaleFactor n) := by
  intro fuel
  induction fuel with
  | zero => intro φ out h; simp [scaleLoop] at h
  | succ n ih =>
    intro φ out h
    simp only [scaleLoop] at h
    by_cases hbr1 : (scaledImageSizeAt img φ).width - cls.windowSize.width ≤ 0 ∨
        (scaledImageSizeAt img φ).height - cls.windowSize.height ≤ 0
    · rw [if_pos hbr1] at h
      refine ⟨0, fun m hm => absurd hm (by omega), ?_, ?_⟩
      · rw [factorAt_zero, mulF_one]
        simp only [breakCondAt, Bool.or_eq_true, decide_eq_true_eq]
        tauto
      · rw [← Option.some_inj.mp h]
        simp
    · rw [if_neg hbr1] at h
      by_cases hbr2 : (maxObjectSize p img).width < (windowSizeAt cls.windowSize φ).width ∨
          (maxObjectSize p img).height < (windowSizeAt cls.windowSize φ).height
      · rw [if_pos hbr2] at h
        refine ⟨0, fun m hm => absurd hm (by omega), ?_, ?_⟩
        · rw [factorAt_zero, mulF_one]
          simp only [breakCondAt, Bool.or_eq_true, decide_eq_true_eq]
          tauto
        · rw [← Option.some_inj.mp h]
          simp
      · rw [if_neg hbr2] at h
        have hbrF : breakCondAt cls p img φ = false := by
          simp only [breakCondAt, Bool.or_eq_false_iff, decide_eq_false_iff_not]
          exact ⟨hbr1, hbr2⟩
        by_cases hmin : (windowSizeAt cls.windowSize φ).width < p.minSize ∨
            (windowSizeAt cls.windowSize φ).height < p.minSize
        · rw [if_pos hmin] at h
          obtain ⟨N, hN1, hN2, hN3⟩ := ih (φ.mul p.scaleFactor) out h
          refine ⟨N + 1, ?_, ?_, ?_⟩
          · intro m hm
            cases m with
            | zero => rw [factorAt_zero, mulF_one]; exact hbrF
            | succ k => rw [mul_factorAt_succ]; exact hN1 k (by omega)
          · rw [mul_factorAt_succ]; exact hN2
          · rw [range_succ_filter_map]
            have hm0 : minOkAt cls p (φ.mul (factorAt p.scaleFactor 0)) = false := by
              rw [factorAt_zero, mulF_one]
              simp [minOkAt, hmin]
            rw [hm0]
            simp only [Bool.false_eq_true, if_false, List.nil_append]
            rw [hN3]
            simp only [mul_factorAt_succ]
        · rw [if_neg hmin] at h
          cases hc : colScan (fun x y => cls.classify img φ x y)
              ((scaledImageSizeAt img φ).width - cls.windowSize.width).toNat
              ((scaledImageSizeAt img φ).height - cls.windowSize.height).toNat
              (yStepAt φ) (n+1) 0 with
          | none => rw [hc] at h; simp at h
          | some pts =>
            cases hrest : scaleLoop cls p img n (φ.mul p.scaleFactor) with
            | none => rw [hc, hrest] at h; simp at h
            | some rest =>
              rw [hc, hrest] at h
              obtain ⟨N, hN1, hN2, hN3⟩ := ih (φ.mul p.scaleFactor) rest hrest
              refine ⟨N + 1, ?_, ?_, ?_⟩
              · intro m hm
                cases m with
                | zero => rw [factorAt_zero, mulF_one]; exact hbrF
                | succ k => rw [mul_factorAt_succ]; exact hN1 k (by omega)
              · rw [mul_factorAt_succ]; exact hN2
              · rw [← Option.some_inj.mp h]
                rw [range_succ_filter_map]
                have hm0 : minOkAt cls p (φ.mul (factorAt p.scaleFactor 0)) = true := by
                  rw [factorAt_zero, mulF_one]
                  simp [minOkAt, hmin]
                rw [hm0]
                simp only [if_true, List.map_cons, List.singleton_append]
                rw [factorAt_zero, mulF_one, hN3]
                simp only [mul_factorAt_succ]

/-! ## Claim theorems -/

/-- Claim C2 (amended): raw scan candidates always lie entirely within the
original image (origin non-negative, origin plus extent at most the image
dimension), and so does the fallback rectangle; rectangles produced by
cluster averaging can however overflow the right/bottom edge by one pixel
(a half-integer average of edge-tight members rounding up), and are only
guaranteed to lie within the image enlarged by one pixel in each extent.
(The claim as stated — all emitted rectangles within the image — is false;
see the counterexample.) -/
theorem detections_within_enlarged_image (cls : Classifier) (p : Params)
    (fm : FileMeta) (img : Image) (fuel : ℕ)
    (hw : 0 < cls.windowSize.width) (hh : 0 < cls.windowSize.height) :
    (∀ cands, scanCandidates cls p img fuel = some cands →
       ∀ cd ∈ cands, withinImage img cd.1) ∧
    (∀ recs, projectMat cls p fm img fuel = some recs →
       ∀ u ∈ recs, ∀ r, u.file.face = some r → withinImagePlusOne img r) :=
  ⟨fun cands h => scanCandidates_within cls p img fuel cands hw hh h,
   fun recs h => projectMat_faces_within cls p fm img fuel recs hw hh h⟩

/-- Witness for C2's amended claim at the 7×7 single-hit input. -/
theorem detections_within_enlarged_image_witness :
    (∀ cands, scanCandidates singleHitCls permissiveParams img7 30 = some cands →
       ∀ cd ∈ cands, withinImage img7 cd.1) ∧
    (∀ recs, projectMat singleHitCls permissiveParams ⟨false, [], none, none⟩
        img7 30 = some recs →
       ∀ u ∈ recs, ∀ r, u.file.face = some r → withinImagePlusOne img7 r) :=
  detections_within_enlarged_image singleHitCls permissiveParams
    ⟨false, [], none, none⟩ img7 30 (by decide) (by decide)

/-- Counterexample to claim C2 as stated: on a 15×7 image with a 4×4
window, `scaleFactor 25/21`, `minSize 5`, `minNeighbors 1`, `eps 1/5`, the
scan yields exactly the two in-bounds candidates `(10,0,5,5)` and
`(9,0,6,6)`; they cluster, and the averaged representative `(10,0,6,6)`
(9.5 and 5.5 rounding to 10 and 6) is attached to the emitted record —
but `10 + 6 = 16 > 15`, outside the image. -/
theorem cluster_average_overflows_image :
    scanCandidates twoTightCls tightParams img15x7 60 =
      some [(⟨10, 0, 5, 5⟩, 1), (⟨9, 0, 6, 6⟩, 1)] ∧
    (10 : ℤ) + 5 ≤ (img15x7.cols : ℤ) ∧ (9 : ℤ) + 6 ≤ (img15x7.cols : ℤ) ∧
    (projectMat twoTightCls tightParams ⟨false, [], none, none⟩ img15x7 60).map
        (List.map fun u => (u.file.face, u.file.confidence)) =
      some [(some ⟨10, 0, 6, 6⟩, some 2)] ∧
    ¬ ((10 : ℤ) + 6 ≤ (img15x7.cols : ℤ)) := by decide

/-- Claim C4: a completed scan starts at factor 1 and multiplies by
`scaleFactor` each step (`factorAt`); it terminates at the first factor
whose processing rectangle is non-positive in either dimension or whose
scaled window exceeds the resolved `maxObjectSize` in either dimension
(`breakCondAt`), and the scanned levels are exactly the earlier factors
whose scaled window reaches `minObjectSize` in both dimensions
(`minOkAt`) — smaller factors are skipped, not terminal. -/
theorem scale_pyramid_structure (cls : Classifier) (p : Params) (img : Image)
    (fuel : ℕ) (out : List (Frac × List Candidate))
    (h : scanImage cls p img fuel = some out) :
    ∃ N, (∀ m < N, breakCondAt cls p img (factorAt p.scaleFactor m) = false) ∧
      breakCondAt cls p img (factorAt p.scaleFactor N) = true ∧
      out.map Prod.fst = ((List.range N).filter fun n =>
          minOkAt cls p (factorAt p.scaleFactor n)).map
        fun n => factorAt p.scaleFactor n := by
  obtain ⟨N, h1, h2, h3⟩ := scaleLoop_factor_trace cls p img fuel ⟨1, 1⟩ out h
  simp only [one_mulF] at h1 h2 h3
  exact ⟨N, h1, h2, h3⟩

/-- Witness for C4: on a 20×20 image with a 3×3 window, `minSize 4` and
`scaleFactor 2`, the scan completes; factor 1 is skipped (window 3 < 4),
factors 2 and 4 are scanned, and the loop breaks at factor 8
(window 24 > 20). -/
theorem scale_pyramid_structure_witness :
    scanImage rejectAllCls c4Params img20 50 =
      some [(⟨2, 1⟩, []), (⟨4, 1⟩, [])] ∧
    ∃ N, (∀ m < N, breakCondAt rejectAllCls c4Params img20
            (factorAt c4Params.scaleFactor m) = false) ∧
      breakCondAt rejectAllCls c4Params img20 (factorAt c4Params.scaleFactor N) = true ∧
      ([((⟨2, 1⟩ : Frac), ([] : List Candidate)), (⟨4, 1⟩, [])].map Prod.fst) =
        ((List.range N).filter fun n =>
            minOkAt rejectAllCls c4Params (factorAt c4Params.scaleFactor n)).map
          fun n => factorAt c4Params.scaleFactor n :=
  ⟨by decide, scale_pyramid_structure rejectAllCls c4Params img20 50
    [(⟨2, 1⟩, []), (⟨4, 1⟩, [])] (by decide)⟩

/-- Claim C5 (amended): provided the classifier returns no score exactly
equal to 0, every scanned level of a completed scan pushes exactly one
candidate per grid origin with a strictly positive score — rectangle
`(cvRound(x*factor), cvRound(y*factor), windowSize.width,
windowSize.height)` with the score as weight — and no candidate for any
other window.  (Unamended the claim is false: a zero score redirects the
cursor and can skip positive-scoring origins; see the counterexample.) -/
theorem positive_windows_yield_their_candidates
    (cls : Classifier) (p : Params) (img : Image) (fuel : ℕ)
    (out : List (Frac × List Candidate))
    (hz : ∀ f x y, cls.classify img f x y ≠ 0)
    (h : scanImage cls p img fuel = some out) :
    ∀ lv ∈ out, lv.2 = levelCandidates cls img lv.1 :=
  scaleLoop_levels_no_zero cls p img hz fuel ⟨1, 1⟩ out h

/-- Witness for C5's amended claim: the 7×7 single-hit configuration has
no zero scores; its two scanned levels carry exactly their expected
candidate lists. -/
theorem positive_windows_yield_their_candidates_witness :
    scanImage singleHitCls permissiveParams img7 30 =
      some [(⟨1, 1⟩, [(⟨0, 0, 3, 3⟩, 1)]), (⟨2, 1⟩, [])] ∧
    ∀ lv ∈ [((⟨1, 1⟩ : Frac), [((⟨0, 0, 3, 3⟩ : Rect), (1 : ℤ))]), (⟨2, 1⟩, [])],
      lv.2 = levelCandidates singleHitCls img7 lv.1 :=
  ⟨by decide,
   positive_windows_yield_their_candidates singleHitCls permissiveParams img7 30
     [(⟨1, 1⟩, [(⟨0, 0, 3, 3⟩, 1)]), (⟨2, 1⟩, [])]
     (by
       intro f x y
       show (if f = ⟨1, 1⟩ ∧ x = 0 ∧ y = 0 then (1 : ℤ) else -1) ≠ 0
       split <;> decide)
     (by decide)⟩

/-- Counterexample to claim C5 as stated: on the 9×9 image the factor-1
level is scanned (it appears in the output) and its processing rectangle
is 6 wide with step 2, so `(2, 0)` is a raster origin; the classifier
scores it 5 > 0, yet the level's candidate list is empty — the zero score
at `x = 0` fast-forwarded the cursor past `x = 2`, so no candidate was
recorded for a positive-scoring window. -/
theorem zero_score_skips_positive_window :
    scanImage zeroJumpCls permissiveParams img9x9 50 =
      some [(⟨1, 1⟩, []), (⟨2, 1⟩, [])] ∧
    zeroJumpCls.classify img9x9 ⟨1, 1⟩ 2 0 = 5 ∧
    ((scaledImageSizeAt img9x9 ⟨1, 1⟩).width - zeroJumpCls.windowSize.width).toNat = 6 ∧
    yStepAt ⟨1, 1⟩ = 2 := by decide

/-- Claim C9: the scan is deterministic — any two completed runs of the
scanner on the same image, the same parameters and the same (pure)
classifier produce the identical candidate list: same rectangles, same
scores, same order.  (The embedding is a pure function of its inputs; the
fuel only decides whether a run completes, never what it returns.) -/
theorem scan_deterministic (cls : Classifier) (p : Params) (img : Image)
    (f1 f2 : ℕ) (c1 c2 : List Candidate)
    (h1 : scanCandidates cls p img f1 = some c1)
    (h2 : scanCandidates cls p img f2 = some c2) : c1 = c2 := by
  unfold scanCandidates scanImage at h1 h2
  cases ha : scaleLoop cls p img f1 ⟨1, 1⟩ with
  | none => rw [ha] at h1; simp at h1
  | some o1 =>
    cases hb : scaleLoop cls p img f2 ⟨1, 1⟩ with
    | none => rw [hb] at h2; simp at h2
    | some o2 =>
      rw [ha] at h1; rw [hb] at h2
      have ho : o1 = o2 := scaleLoop_some_unique cls p img f1 f2 ⟨1, 1⟩ o1 o2 ha hb
      simp only [Option.map_some'] at h1 h2
      rw [← Option.some_inj.mp h1, ← Option.some_inj.mp h2, ho]

/-- Witness for C9: two runs of the 7×7 single-hit scan with different
fuels both complete and their candidate lists coincide. -/
theorem scan_deterministic_witness :
    scanCandidates singleHitCls permissiveParams img7 30 =
      some [(⟨0, 0, 3, 3⟩, 1)] ∧
    scanCandidates singleHitCls permissiveParams img7 40 =
      some [(⟨0, 0, 3, 3⟩, 1)] ∧
    ([(⟨0, 0, 3, 3⟩, 1)] : List Candidate) = [(⟨0, 0, 3, 3⟩, 1)] :=
  ⟨by decide, by decide,
   scan_deterministic singleHitCls permissiveParams img7 30 40 _ _
     (by decide) (by decide)⟩



/-- Claim C7 (code_bug): when the cascade model file cannot be opened
(`fs.isOpened()` false), `load` returns normally: the classifier state is
left untouched (here: still unset) and no failure is signalled to the
caller — contradicting the claim, which requires a surfaced failure.
The spec itself flags this silent no-op as a defect of the code. -/
theorem load_returns_silently_when_model_missing :
    loadModel false (0 : ℕ) none = (none, false) := rfl

/-- Claim C3: during the inner raster scan, a score of exactly 0 at a
visited position `x` sets the horizontal cursor to the step size before
the next `x += yStep` increment — the scan continues from
`yStep + yStep` — emitting nothing; a strictly negative score advances
plainly by the step, also emitting nothing. -/
theorem zero_score_fast_forwards_cursor
    (score : ℕ → ℤ) (procW yStep fuel x : ℕ) (hx : x < procW) :
    (score x = 0 →
      rowScan score procW yStep (fuel+1) x =
        rowScan score procW yStep fuel (yStep + yStep)) ∧
    (score x < 0 →
      rowScan score procW yStep (fuel+1) x =
        rowScan score procW yStep fuel (x + yStep)) := by
  constructor
  · intro h0
    have hp : ¬ (0 : ℤ) < score x := by omega
    simp [rowScan, hx, h0, hp]
  · intro hneg
    have h0 : ¬ score x = 0 := by omega
    have hp : ¬ (0 : ℤ) < score x := by omega
    simp [rowScan, hx, h0, hp]

/-- Witness for C3 at a concrete row: with `procW = 6`, `yStep = 2`, a zero
score at `x = 0` continues from `2 + 2`, and a negative score at `x = 0`
continues from `0 + 2`. -/
theorem zero_score_fast_forwards_cursor_witness :
    (rowScan (fun _ => (0 : ℤ)) 6 2 4 0 = rowScan (fun _ => (0 : ℤ)) 6 2 3 (2 + 2)) ∧
    (rowScan (fun _ => (-1 : ℤ)) 6 2 4 0 = rowScan (fun _ => (-1 : ℤ)) 6 2 3 (0 + 2)) :=
  ⟨(zero_score_fast_forwards_cursor (fun _ => 0) 6 2 3 0 (by decide)).1 rfl,
   (zero_score_fast_forwards_cursor (fun _ => -1) 6 2 3 0 (by decide)).2 (by decide)⟩

/-- Claim C6 (code_bug): with `scaleFactor = 1` on a non-degenerate image
the scale loop never terminates — the factor stays at 1 and no break
condition is ever reached, so the scan returns `none` for every fuel.
The claim (and spec §7) requires termination with zero candidates
instead; the code has no guard against `scaleFactor ≤ 1`. -/
theorem scale_loop_diverges_at_unit_scaleFactor :
    ∀ fuel, scanImage rejectAllCls unitScaleParams img20 fuel = none := by
  intro fuel
  induction fuel with
  | zero => rfl
  | succ n ih =>
    have step : scanImage rejectAllCls unitScaleParams img20 (n+1) =
        match colScan (fun x y => rejectAllCls.classify img20 ⟨1, 1⟩ x y)
                17 17 2 (n+1) 0,
              scanImage rejectAllCls unitScaleParams img20 n with
        | some pts, some rest =>
            some ((⟨1, 1⟩, pts.map (candidateAt ⟨3, 3⟩ ⟨1, 1⟩)) :: rest)
        | _, _ => none := rfl
    rw [step, ih]
    cases colScan (fun x y => rejectAllCls.classify img20 ⟨1, 1⟩ x y)
        17 17 2 (n+1) 0 <;> rfl

/-- Claim C10: the single-template `project` delegates to the list version
and keeps only the first resulting record; when the list version produces
no record (as for an empty template with `enrollAll` true), the
destination template is left unchanged. -/
theorem single_template_keeps_first_record
    (cls : Classifier) (p : Params) (fuel : ℕ) (src dst : Template) :
    (∀ u rest, projectList cls p fuel [src] = some (u :: rest) →
       projectOne cls p fuel src dst = some u) ∧
    (projectList cls p fuel [src] = some [] →
       projectOne cls p fuel src dst = some dst) ∧
    (src.mats = [] → src.file.enrollAll = true →
       projectOne cls p fuel src dst = some dst) := by
  refine ⟨fun u rest h => by simp [projectOne, h], fun h => by simp [projectOne, h], ?_⟩
  intro hm he
  simp [projectOne, projectList, projectMats, hm, he]

/-- Witness for C10: a scan of the 7×7 image yields one record, and the
single-template `project` returns exactly it; an empty template with
`enrollAll` true leaves the destination unchanged. -/
theorem single_template_keeps_first_record_witness :
    projectOne singleHitCls permissiveParams 30 img7Template img7Template =
      some (mkRecord img7Template.file img7 ⟨0, 0, 3, 3⟩ 1) ∧
    projectOne singleHitCls permissiveParams 30
      ⟨⟨true, [], none, none⟩, []⟩ img7Template = some img7Template :=
  ⟨(single_template_keeps_first_record singleHitCls permissiveParams 30
      img7Template img7Template).1
      (mkRecord img7Template.file img7 ⟨0, 0, 3, 3⟩ 1) [] rfl,
   (single_template_keeps_first_record singleHitCls permissiveParams 30
      ⟨⟨true, [], none, none⟩, []⟩ img7Template).2.2 rfl rfl⟩

/-- Claim C8 (amended): what the source skips is an input template that
contains no matrices (with `enrollAll` false): it is emitted unchanged,
before any scanning.  (The claim as stated — about a zero-area image —
fails; see the counterexample.) -/
theorem empty_template_passes_through_unchanged
    (cls : Classifier) (p : Params) (fuel : ℕ) (t : Template)
    (rest : List Template)
    (hm : t.mats = []) (he : t.file.enrollAll = false) :
    projectList cls p fuel (t :: rest) =
      (projectList cls p fuel rest).map fun vs => t :: vs := by
  simp only [projectList, hm, he, List.isEmpty_nil, and_self, if_pos]
  cases projectList cls p fuel rest <;> rfl

/-- Witness for C8's amended claim at a concrete input: a template with no
matrices and `enrollAll` false passes through unchanged. -/
theorem empty_template_passes_through_unchanged_witness :
    projectList rejectAllCls defaultParams 5
        [⟨⟨false, [], none, none⟩, []⟩] =
      (projectList rejectAllCls defaultParams 5 []).map
        (fun vs => (⟨⟨false, [], none, none⟩, []⟩ : Template) :: vs) :=
  empty_template_passes_through_unchanged rejectAllCls defaultParams 5
    ⟨⟨false, [], none, none⟩, []⟩ [] rfl rfl

/-- Claim C1: given a completed scan of one matrix, the emitted records
are exactly the clustered detections — except that when `enrollAll` is
false and the clustered set is empty, exactly one synthetic record is
emitted instead, covering the full image `(0,0,cols,rows)` with confidence
exactly 1.  In particular, with `enrollAll` true and no surviving
clusters, zero records are emitted (the map over the empty list). -/
theorem fallback_fullImage_iff_no_clusters
    (cls : Classifier) (p : Params) (fm : FileMeta) (img : Image)
    (fuel : ℕ) (cands : List Candidate)
    (h : scanCandidates cls p img fuel = some cands) :
    projectMat cls p fm img fuel =
      some (if fm.enrollAll = false ∧ groupDetections p.minNeighbors p.eps cands = []
            then [mkRecord fm img ⟨0, 0, (img.cols : ℤ), (img.rows : ℤ)⟩ 1]
            else (groupDetections p.minNeighbors p.eps cands).map
              fun d => mkRecord fm img d.1 d.2) := by
  unfold projectMat
  rw [h]
  simp only [Option.map_some']
  congr 1
  by_cases hc : fm.enrollAll = false ∧ groupDetections p.minNeighbors p.eps cands = []
  · obtain ⟨he, hdets⟩ := hc
    have hr : List.range 1 = [0] := rfl
    simp [he, hdets, hr]
  · have hc2 : ¬ (fm.enrollAll = false ∧
        (groupDetections p.minNeighbors p.eps cands).map Prod.fst = []) := by
      simpa [List.map_eq_nil_iff] using hc
    rw [if_neg hc2, if_neg hc]
    apply List.ext_getElem
    · simp
    · intro i h1 h2
      simp only [List.getElem_map, List.getElem_range, List.length_range] at h1 ⊢
      have hi : i < (groupDetections p.minNeighbors p.eps cands).length := by
        simpa using h1
      have hw : i < ((groupDetections p.minNeighbors p.eps cands).map Prod.snd).length := by
        simpa using hi
      rw [if_pos hw]
      rw [List.getD_eq_getElem?_getD, List.getD_eq_getElem?_getD]
      rw [List.getElem?_eq_getElem (by simpa using hi), List.getElem?_eq_getElem hw]
      simp

/-- Witness for C1: the 7×7 single-hit scan completes with one candidate,
and the records equation holds at that input. -/
theorem fallback_fullImage_iff_no_clusters_witness :
    scanCandidates singleHitCls permissiveParams img7 30 =
      some [(⟨0, 0, 3, 3⟩, 1)] ∧
    projectMat singleHitCls permissiveParams ⟨false, [], none, none⟩ img7 30 =
      some (if (⟨false, [], none, none⟩ : FileMeta).enrollAll = false ∧
              groupDetections permissiveParams.minNeighbors permissiveParams.eps
                [(⟨0, 0, 3, 3⟩, 1)] = []
            then [mkRecord ⟨false, [], none, none⟩ img7
                    ⟨0, 0, (img7.cols : ℤ), (img7.rows : ℤ)⟩ 1]
            else (groupDetections permissiveParams.minNeighbors
                    permissiveParams.eps [(⟨0, 0, 3, 3⟩, 1)]).map
              fun d => mkRecord ⟨false, [], none, none⟩ img7 d.1 d.2) :=
  ⟨by decide, fallback_fullImage_iff_no_clusters singleHitCls permissiveParams
    ⟨false, [], none, none⟩ img7 30 [(⟨0, 0, 3, 3⟩, 1)] (by decide)⟩

/-- Counterexample to claim C8 as stated: an input whose image is empty
(zero area, 0×0) with `enrollAll` false is NOT emitted unchanged — the
template is not empty, so the driver scans the matrix, finds no clusters,
and attaches the fallback rectangle `(0,0,0,0)` with confidence 1 to the
output record, whereas the input carried no rectangle, no confidence and
no Face. -/
theorem zero_area_image_gets_fallback_attached :
    (projectList rejectAllCls defaultParams 5 [zeroAreaTemplate]).map
        (List.map fun u => (u.file.rects, u.file.confidence, u.file.face)) =
      some [([⟨0, 0, 0, 0⟩], some 1, some ⟨0, 0, 0, 0⟩)] ∧
    zeroAreaTemplate.file.rects = [] ∧
    zeroAreaTemplate.file.confidence = none ∧
    zeroAreaTemplate.file.face = none := by
  exact ⟨rfl, rfl, rfl, rfl⟩

end SlidingWindow
